import Mathlib

/-!
Verification of the traversal engines in `src/visitor.rs` of the
`graphql-parser` repository: the field iterator over a selection set
(`FieldIter`), the field iterator over a whole document
(`DocumentFieldIter`), and the directive iterator over a selection set
(`SetDirectiveIter`).

The AST node types live in the crate module `query`, which is not part of
the provided sources; they are modelled from the specification's data
model (spec section 3).  The three iterators themselves are embedded
faithfully from `src/visitor.rs`: each Rust `next` method is a pure step
function from iterator state to an optional item plus the successor
state.  The internal `while`/`loop` of each `next` is expressed with an
explicit fuel argument; the fuel is instantiated with a size measure of
the state that provably dominates the number of loop iterations, so all
definitions are executable and total.
-/

namespace GraphqlVisitor

/-- Modelled from the spec: a Directive is a flat leaf entity (name plus
arguments), always attached to a Field, InlineFragment or FragmentSpread.
Argument values are abstracted as strings; the traversal never inspects
them. -/
structure Directive where
  name : String
  arguments : List (String × String)
deriving DecidableEq, Repr

/-- Modelled from the spec: a FragmentSpread has a list of Directives and a
reference (by name) to an external fragment definition; it does NOT own a
nested SelectionSet. -/
structure FragmentSpread where
  fragment_name : String
  directives : List Directive
deriving DecidableEq, Repr

mutual
/-- Modelled from the spec: a Field has a name, a list of Directives, and
exactly one (possibly empty) nested SelectionSet (a list of Selections). -/
inductive Field where
  | mk (name : String) (directives : List Directive)
       (selection_set : List Selection)

/-- Modelled from the spec: an InlineFragment has a list of Directives and
exactly one nested SelectionSet; it has no name of its own. -/
inductive InlineFragment where
  | mk (directives : List Directive) (selection_set : List Selection)

/-- Modelled from the spec: a Selection is a variant over
Field, InlineFragment and FragmentSpread. -/
inductive Selection where
  | field (f : Field)
  | inlineFragment (i : InlineFragment)
  | fragmentSpread (s : FragmentSpread)
end

/-- Modelled from the spec: a SelectionSet is an ordered sequence of
Selections (the `items` of the Rust `SelectionSet` struct). -/
abbrev SelectionSet := List Selection

def Field.name : Field → String
  | .mk n _ _ => n

def Field.directives : Field → List Directive
  | .mk _ ds _ => ds

def Field.selection_set : Field → List Selection
  | .mk _ _ ss => ss

def InlineFragment.directives : InlineFragment → List Directive
  | .mk ds _ => ds

def InlineFragment.selection_set : InlineFragment → List Selection
  | .mk _ ss => ss

/-- Modelled from the spec: a Definition is a variant over Operation and
Fragment; each owns exactly one SelectionSet (its body). -/
inductive Definition where
  | operation (selection_set : SelectionSet)
  | fragment (selection_set : SelectionSet)

/-- The body of a definition: both variants expose their selection set,
mirroring the two arms of the `match` in `DocumentFieldIter::next`. -/
def Definition.selection_set : Definition → SelectionSet
  | .operation ss => ss
  | .fragment ss => ss

/-- Modelled from the spec: a Document is an ordered sequence of
Definitions. -/
structure Document where
  definitions : List Definition

mutual
/-- Size of one Selection, counting its directives; used as fuel for the
iterator loops. -/
def selSize : Selection → Nat
  | .field (.mk _ ds ss) => 2 + ds.length + setSize ss
  | .inlineFragment (.mk ds ss) => 2 + ds.length + setSize ss
  | .fragmentSpread s => 1 + s.directives.length

/-- Total size of a list of Selections. -/
def setSize : List Selection → Nat
  | [] => 0
  | s :: rest => selSize s + setSize rest
end

/-- Size measure of an iterator stack: number of frames plus the sizes of
all remaining selections.  Every non-yielding iteration of the Rust
`while` loops strictly decreases this measure. -/
def stackMeasure (st : List (List Selection)) : Nat :=
  st.length + (st.map setSize).sum

/-- State of `FieldIter` (visitor.rs line 24): a stack of cursors, each
over the remaining Selections of one SelectionSet.  The head of the list
is the top of the stack (the most recently pushed frame). -/
structure FieldIter where
  stack : List (List Selection)

/-- Constructor from `CreateData for FieldIter` (visitor.rs line 38): a
single frame containing the root set's items. -/
def FieldIter.new (v : SelectionSet) : FieldIter :=
  ⟨[v]⟩

/-- The `while` loop body of `FieldIter::next` (visitor.rs lines 55-74),
with explicit fuel.  On `Selection::Field` the field's nested set is
pushed and the field is returned; on `Selection::InlineFragment` the
nested set is pushed and the loop continues; `Selection::FragmentSpread`
is skipped; an exhausted frame is popped.  With fuel at least
`stackMeasure` the fuel never runs out before the stack empties. -/
def FieldIter.nextFuel : Nat → List (List Selection) →
    Option (Field × List (List Selection))
  | _, [] => none
  | 0, _ :: _ => none
  | fuel + 1, frame :: lower =>
    match frame with
    | [] => FieldIter.nextFuel fuel lower
    | Selection.field f :: rest =>
        some (f, f.selection_set :: rest :: lower)
    | Selection.inlineFragment i :: rest =>
        FieldIter.nextFuel fuel (i.selection_set :: rest :: lower)
    | Selection.fragmentSpread _ :: rest =>
        FieldIter.nextFuel fuel (rest :: lower)

/-- One call of `FieldIter::next`: returns the yielded item (if any) and
the mutated iterator.  When the Rust loop returns `None` it has popped
every frame, so the terminal state has an empty stack. -/
def FieldIter.next (it : FieldIter) : Option Field × FieldIter :=
  match FieldIter.nextFuel (stackMeasure it.stack) it.stack with
  | some (f, st) => (some f, ⟨st⟩)
  | none => (none, ⟨[]⟩)

/-- Generic driver: run an iterator's step function at most `n` times,
collecting the yielded items, stopping at the first exhausted step.  This
is how a Rust caller consumes an `Iterator`. -/
def runSteps {σ ι : Type} (next : σ → Option ι × σ) : Nat → σ → List ι
  | 0, _ => []
  | n + 1, st =>
    match next st with
    | (some x, st') => x :: runSteps next n st'
    | (none, _) => []

/-- The full sequence produced by a `FieldIter`: `stackMeasure + 1` steps
always suffice to exhaust it (proved below as `fieldIterSeq_eq`). -/
def FieldIter.run (it : FieldIter) : List Field :=
  runSteps FieldIter.next (stackMeasure it.stack + 1) it

/-- The field sequence the engine produces from a selection set. -/
def fieldIterSeq (v : SelectionSet) : List Field :=
  (FieldIter.new v).run

mutual
/-- Fields contributed by one Selection in the pre-order reading of the
spec: a Field yields itself before the fields of its nested set, an
InlineFragment contributes only its nested set, and a FragmentSpread is a
dead end (its referenced fragment is never entered). -/
def selFields : Selection → List Field
  | .field (.mk n ds ss) => Field.mk n ds ss :: preorderFields ss
  | .inlineFragment (.mk _ ss) => preorderFields ss
  | .fragmentSpread _ => []

/-- The pre-order depth-first listing, in document order, of every Field
transitively reachable from a SelectionSet through Field/InlineFragment
nesting. -/
def preorderFields : List Selection → List Field
  | [] => []
  | s :: rest => selFields s ++ preorderFields rest
end

/-- Fields remaining in a whole iterator stack: the top frame's fields
first, then the lower frames'. -/
def stackFields : List (List Selection) → List Field
  | [] => []
  | frame :: lower => preorderFields frame ++ stackFields lower

/-- State of `SetDirectiveIter` (visitor.rs line 128): the same stack of
selection cursors plus an optional cursor over the directive list of the
node most recently entered. -/
structure SetDirectiveIter where
  stack : List (List Selection)
  directive_iter : Option (List Directive)

/-- Constructor from `CreateData for SetDirectiveIter` (visitor.rs line
145): one frame with the root set's items and no pending directive
cursor. -/
def SetDirectiveIter.new (v : SelectionSet) : SetDirectiveIter :=
  ⟨[v], none⟩

/-- The `'outer` loop of `SetDirectiveIter::next` (visitor.rs lines
157-189) with explicit fuel.  A pending non-empty directive cursor yields
its next directive at once; otherwise the cursor is taken (dropped) and
the stack is walked: a Field or InlineFragment pushes its nested set and
installs its directive list as the new cursor, a FragmentSpread pushes
nothing but installs its directive list, and an exhausted frame is
popped.  Fuel bounds only the stack walk; with fuel at least
`stackMeasure` it never runs out early. -/
def SetDirectiveIter.nextFuel : Nat → List (List Selection) →
    Option (List Directive) → Option (Directive × SetDirectiveIter)
  | _, stack, some (d :: ds) => some (d, ⟨stack, some ds⟩)
  | _, [], _ => none
  | 0, _ :: _, _ => none
  | fuel + 1, frame :: lower, _ =>
    match frame with
    | [] => SetDirectiveIter.nextFuel fuel lower none
    | Selection.field f :: rest =>
        SetDirectiveIter.nextFuel fuel (f.selection_set :: rest :: lower)
          (some f.directives)
    | Selection.inlineFragment i :: rest =>
        SetDirectiveIter.nextFuel fuel (i.selection_set :: rest :: lower)
          (some i.directives)
    | Selection.fragmentSpread s :: rest =>
        SetDirectiveIter.nextFuel fuel (rest :: lower) (some s.directives)

/-- One call of `SetDirectiveIter::next`.  When the Rust loop returns
`None` it has taken the directive cursor and popped every frame, so the
terminal state is the empty stack with no cursor. -/
def SetDirectiveIter.next (it : SetDirectiveIter) :
    Option Directive × SetDirectiveIter :=
  match SetDirectiveIter.nextFuel (stackMeasure it.stack) it.stack
      it.directive_iter with
  | some (d, it') => (some d, it')
  | none => (none, ⟨[], none⟩)

/-- The full sequence produced by a `SetDirectiveIter`: pending directives
plus the stack measure bound the number of yields. -/
def SetDirectiveIter.run (it : SetDirectiveIter) : List Directive :=
  runSteps SetDirectiveIter.next
    ((it.directive_iter.getD []).length + stackMeasure it.stack + 1) it

/-- The directive sequence the engine produces from a selection set. -/
def dirIterSeq (v : SelectionSet) : List Directive :=
  (SetDirectiveIter.new v).run

mutual
/-- Directives contributed by one Selection, in the annotate-then-descend
order of the spec: a node's own directives (declared order) first, then
the directives of its nested set; a FragmentSpread contributes only its
own directives since its referenced fragment is never entered. -/
def selDirectives : Selection → List Directive
  | .field (.mk _ ds ss) => ds ++ preorderDirectives ss
  | .inlineFragment (.mk ds ss) => ds ++ preorderDirectives ss
  | .fragmentSpread s => s.directives

/-- The pre-order depth-first directive listing of a SelectionSet: for
each Selection in document order, its own directives contiguously, then
its descendants' directives, then its later siblings'. -/
def preorderDirectives : List Selection → List Directive
  | [] => []
  | s :: rest => selDirectives s ++ preorderDirectives rest
end

/-- Directives remaining in a whole stack of cursors. -/
def stackDirectives : List (List Selection) → List Directive
  | [] => []
  | frame :: lower => preorderDirectives frame ++ stackDirectives lower

/-- Directives remaining in a full `SetDirectiveIter` state: the pending
cursor's directives come before anything still in the stack. -/
def dirSem (it : SetDirectiveIter) : List Directive :=
  it.directive_iter.getD [] ++ stackDirectives it.stack

/-- State of `DocumentFieldIter` (visitor.rs line 78): a cursor over the
document's remaining definitions plus an optional current field
iterator. -/
structure DocumentFieldIter where
  doc_iter : List Definition
  field_iter : Option FieldIter

/-- Constructor from `CreateData for DocumentFieldIter` (visitor.rs line
95): all definitions pending, no current field iterator. -/
def DocumentFieldIter.new (v : Document) : DocumentFieldIter :=
  ⟨v.definitions, none⟩

/-- The definition-advancing part of the loop of
`DocumentFieldIter::next` (visitor.rs lines 109-122): take the next
definition, build a fresh `FieldIter` over its selection set, and ask it
for an item; keep advancing past definitions whose bodies yield
nothing. -/
def DocumentFieldIter.advanceDef :
    List Definition → Option (Field × DocumentFieldIter)
  | [] => none
  | d :: rest =>
    match (FieldIter.new d.selection_set).next with
    | (some f, fi) => some (f, ⟨rest, some fi⟩)
    | (none, _) => DocumentFieldIter.advanceDef rest

/-- One call of `DocumentFieldIter::next`: drain the current field
iterator first; once it is exhausted, discard it and advance through the
remaining definitions.  When the Rust loop returns `None`, the definition
cursor is exhausted and the field iterator has been taken. -/
def DocumentFieldIter.next (it : DocumentFieldIter) :
    Option Field × DocumentFieldIter :=
  match it.field_iter with
  | some fi =>
    match fi.next with
    | (some f, fi') => (some f, ⟨it.doc_iter, some fi'⟩)
    | (none, _) =>
      match DocumentFieldIter.advanceDef it.doc_iter with
      | some (f, it') => (some f, it')
      | none => (none, ⟨[], none⟩)
  | none =>
    match DocumentFieldIter.advanceDef it.doc_iter with
    | some (f, it') => (some f, it')
    | none => (none, ⟨[], none⟩)

/-- Size measure of a list of pending definitions. -/
def defsMeasure : List Definition → Nat
  | [] => 0
  | d :: rest => 1 + setSize d.selection_set + defsMeasure rest

/-- Size measure of a full `DocumentFieldIter` state. -/
def docMeasure (it : DocumentFieldIter) : Nat :=
  (match it.field_iter with
    | some fi => stackMeasure fi.stack
    | none => 0) + defsMeasure it.doc_iter

/-- The full sequence produced by a `DocumentFieldIter`. -/
def DocumentFieldIter.run (it : DocumentFieldIter) : List Field :=
  runSteps DocumentFieldIter.next (docMeasure it + 1) it

/-- The field sequence the engine produces from a whole document. -/
def docFieldIterSeq (v : Document) : List Field :=
  (DocumentFieldIter.new v).run

/-- Concatenation, in definition order, of the pre-order field listings
of each definition's body. -/
def defsFields : List Definition → List Field
  | [] => []
  | d :: rest => preorderFields d.selection_set ++ defsFields rest

/-- Fields remaining in a full `DocumentFieldIter` state. -/
def docSem (it : DocumentFieldIter) : List Field :=
  (match it.field_iter with
    | some fi => stackFields fi.stack
    | none => []) ++ defsFields it.doc_iter

/-- The state reached after one `next` call, discarding the item. -/
def stepState {σ ι : Type} (next : σ → Option ι × σ) (st : σ) : σ :=
  (next st).2

/-- Run exactly `n` `next` calls, collecting every yielded item (a call
that yields nothing contributes nothing but still advances the state). -/
def tickRun {σ ι : Type} (next : σ → Option ι × σ) : Nat → σ → List ι
  | 0, _ => []
  | n + 1, st => (next st).1.toList ++ tickRun next n (next st).2

/-- Two engines of the same kind advanced independently under an
arbitrary schedule: `true` ticks the first engine, `false` the second;
each engine's yielded items are collected separately. -/
def outputsBoth {σ ι : Type} (next : σ → Option ι × σ) :
    List Bool → σ → σ → List ι × List ι
  | [], _, _ => ([], [])
  | true :: sched, a, b =>
    ((next a).1.toList ++ (outputsBoth next sched (next a).2 b).1,
      (outputsBoth next sched (next a).2 b).2)
  | false :: sched, a, b =>
    ((outputsBoth next sched a (next b).2).1,
      (next b).1.toList ++ (outputsBoth next sched a (next b).2).2)

mutual
/-- Multiset of Field occurrences transitively reachable from one
Selection through Field/InlineFragment nesting only; a FragmentSpread is
never entered, so it contributes nothing. -/
def selFieldOccs : Selection → Multiset Field
  | .field (.mk n ds ss) => Field.mk n ds ss ::ₘ reachableFieldOccs ss
  | .inlineFragment (.mk _ ss) => reachableFieldOccs ss
  | .fragmentSpread _ => 0

/-- Multiset of Field occurrences transitively reachable from a
SelectionSet through Field/InlineFragment nesting; each occurrence in the
tree counts once. -/
def reachableFieldOccs : List Selection → Multiset Field
  | [] => 0
  | s :: rest => selFieldOccs s + reachableFieldOccs rest
end

/-- The concrete document of the `test_field_iter` unit test: one
operation whose top-level field is `users`, with nested fields `id` and
`country`, and `country` having nested field `id`.  Directive lists are
empty, as in the test query. -/
def usersQueryDoc : Document :=
  ⟨[Definition.operation
    [Selection.field (Field.mk "users" []
      [Selection.field (Field.mk "id" [] []),
        Selection.field (Field.mk "country" []
          [Selection.field (Field.mk "id" [] [])])])]]⟩

mutual
theorem selFields_length_le (s : Selection) :
    (selFields s).length ≤ selSize s := by
  cases s with
  | field f =>
    cases f with
    | mk n ds ss =>
      have h := preorderFields_length_le ss
      simp only [selFields, selSize, List.length_cons]
      omega
  | inlineFragment i =>
    cases i with
    | mk ds ss =>
      have h := preorderFields_length_le ss
      simp only [selFields, selSize]
      omega
  | fragmentSpread s =>
    simp [selFields, selSize]

theorem preorderFields_length_le (l : List Selection) :
    (preorderFields l).length ≤ setSize l := by
  cases l with
  | nil => simp [preorderFields, setSize]
  | cons s rest =>
    have h1 := selFields_length_le s
    have h2 := preorderFields_length_le rest
    simp only [preorderFields, setSize, List.length_append]
    omega
end

theorem stackMeasure_nil : stackMeasure [] = 0 := rfl

theorem stackMeasure_cons (frame : List Selection)
    (lower : List (List Selection)) :
    stackMeasure (frame :: lower) = 1 + setSize frame + stackMeasure lower := by
  simp [stackMeasure, Nat.add_comm, Nat.add_assoc, Nat.add_left_comm]

/-- Characterization of the loop of `FieldIter::next`: with enough fuel it
either reports exhaustion exactly when no Field remains anywhere in the
stack, or it yields the first remaining Field and a successor stack
holding exactly the rest. -/
theorem fieldNextFuel_spec :
    ∀ (fuel : Nat) (st : List (List Selection)), stackMeasure st ≤ fuel →
      (FieldIter.nextFuel fuel st = none ∧ stackFields st = []) ∨
      ∃ f st', FieldIter.nextFuel fuel st = some (f, st') ∧
        stackFields st = f :: stackFields st' := by
  intro fuel
  induction fuel with
  | zero =>
    intro st hle
    cases st with
    | nil => exact Or.inl ⟨rfl, rfl⟩
    | cons frame lower =>
      rw [stackMeasure_cons] at hle
      omega
  | succ fuel ih =>
    intro st hle
    cases st with
    | nil => exact Or.inl ⟨rfl, rfl⟩
    | cons frame lower =>
      rw [stackMeasure_cons] at hle
      cases frame with
      | nil =>
        have hlow : stackMeasure lower ≤ fuel := by
          simp [setSize] at hle; omega
        have := ih lower hlow
        simpa [FieldIter.nextFuel, stackFields, preorderFields] using this
      | cons s rest =>
        cases s with
        | field f =>
          cases f with
          | mk n ds ss =>
            refine Or.inr ⟨Field.mk n ds ss, ss :: rest :: lower, rfl, ?_⟩
            simp [stackFields, preorderFields, selFields, Field.selection_set]
        | inlineFragment i =>
          cases i with
          | mk ds ss =>
            have hm : stackMeasure (ss :: rest :: lower) ≤ fuel := by
              rw [stackMeasure_cons, stackMeasure_cons]
              simp only [setSize, selSize] at hle
              omega
            have h := ih (ss :: rest :: lower) hm
            have heq : stackFields ((Selection.inlineFragment (.mk ds ss) :: rest) :: lower)
                = stackFields (ss :: rest :: lower) := by
              simp [stackFields, preorderFields, selFields]
            rcases h with ⟨h1, h2⟩ | ⟨f, st', h1, h2⟩
            · exact Or.inl ⟨by simpa [FieldIter.nextFuel, InlineFragment.selection_set] using h1,
                by rw [heq]; exact h2⟩
            · exact Or.inr ⟨f, st', by simpa [FieldIter.nextFuel, InlineFragment.selection_set] using h1,
                by rw [heq]; exact h2⟩
        | fragmentSpread sp =>
          have hm : stackMeasure (rest :: lower) ≤ fuel := by
            rw [stackMeasure_cons]
            simp only [setSize, selSize] at hle
            omega
          have h := ih (rest :: lower) hm
          have heq : stackFields ((Selection.fragmentSpread sp :: rest) :: lower)
              = stackFields (rest :: lower) := by
            simp [stackFields, preorderFields, selFields]
          rcases h with ⟨h1, h2⟩ | ⟨f, st', h1, h2⟩
          · exact Or.inl ⟨by simpa [FieldIter.nextFuel] using h1, by rw [heq]; exact h2⟩
          · exact Or.inr ⟨f, st', by simpa [FieldIter.nextFuel] using h1, by rw [heq]; exact h2⟩

/-- Characterization of one `FieldIter::next` call on the wrapped state. -/
theorem fieldNext_spec (it : FieldIter) :
    (it.next = (none, ⟨[]⟩) ∧ stackFields it.stack = []) ∨
    ∃ f it', it.next = (some f, it') ∧
      stackFields it.stack = f :: stackFields it'.stack := by
  rcases fieldNextFuel_spec (stackMeasure it.stack) it.stack (Nat.le_refl _) with
    ⟨h1, h2⟩ | ⟨f, st', h1, h2⟩
  · exact Or.inl ⟨by simp [FieldIter.next, h1], h2⟩
  · exact Or.inr ⟨f, ⟨st'⟩, by simp [FieldIter.next, h1], h2⟩

/-- Generic driver correctness: if one step either signals exhaustion
exactly on an empty semantics or peels off the head of the semantics,
then running enough steps produces exactly the semantics. -/
theorem runSteps_eq_of_spec {σ ι : Type} (next : σ → Option ι × σ)
    (sem : σ → List ι)
    (hspec : ∀ st, ((next st).1 = none ∧ sem st = []) ∨
      ∃ x, (next st).1 = some x ∧ sem st = x :: sem (next st).2) :
    ∀ (n : Nat) (st : σ), (sem st).length < n → runSteps next n st = sem st := by
  intro n
  induction n with
  | zero => intro st h; omega
  | succ n ih =>
    intro st h
    rcases hspec st with ⟨h1, h2⟩ | ⟨x, h1, h2⟩
    · rcases hnext : next st with ⟨o, st'⟩
      rw [hnext] at h1
      simp at h1
      subst h1
      simp [runSteps, hnext, h2]
    · rcases hnext : next st with ⟨o, st'⟩
      rw [hnext] at h1 h2
      simp at h1
      subst h1
      have hlen : (sem st').length < n := by
        rw [h2] at h
        simpa using Nat.lt_of_succ_lt_succ h
      simp [runSteps, hnext, h2, ih st' hlen]

/-- The field engine over a SelectionSet produces exactly the pre-order
depth-first field listing. -/
theorem fieldIterSeq_eq (v : SelectionSet) :
    fieldIterSeq v = preorderFields v := by
  have hspec : ∀ it : FieldIter, ((FieldIter.next it).1 = none ∧ stackFields it.stack = []) ∨
      ∃ x, (FieldIter.next it).1 = some x ∧
        stackFields it.stack = x :: stackFields (FieldIter.next it).2.stack := by
    intro it
    rcases fieldNext_spec it with ⟨h1, h2⟩ | ⟨f, it', h1, h2⟩
    · exact Or.inl ⟨by simp [h1], h2⟩
    · exact Or.inr ⟨f, by simp [h1], by simp [h1]; exact h2⟩
  have hrun := runSteps_eq_of_spec FieldIter.next (fun it => stackFields it.stack) hspec
  have hlen : (stackFields (FieldIter.new v).stack).length <
      stackMeasure (FieldIter.new v).stack + 1 := by
    have h1 : stackFields (FieldIter.new v).stack = preorderFields v ++ [] := rfl
    rw [h1, List.append_nil]
    have := preorderFields_length_le v
    have h2 : stackMeasure (FieldIter.new v).stack = 1 + setSize v := by
      simp [FieldIter.new, stackMeasure_cons, stackMeasure_nil]
    omega
  have := hrun (stackMeasure (FieldIter.new v).stack + 1) (FieldIter.new v) hlen
  calc fieldIterSeq v = stackFields (FieldIter.new v).stack := this
    _ = preorderFields v ++ [] := rfl
    _ = preorderFields v := List.append_nil _

mutual
theorem selDirectives_length_le (s : Selection) :
    (selDirectives s).length ≤ selSize s := by
  cases s with
  | field f =>
    cases f with
    | mk n ds ss =>
      have h := preorderDirectives_length_le ss
      simp only [selDirectives, selSize, List.length_append]
      omega
  | inlineFragment i =>
    cases i with
    | mk ds ss =>
      have h := preorderDirectives_length_le ss
      simp only [selDirectives, selSize, List.length_append]
      omega
  | fragmentSpread s =>
    simp [selDirectives, selSize]

theorem preorderDirectives_length_le (l : List Selection) :
    (preorderDirectives l).length ≤ setSize l := by
  cases l with
  | nil => simp [preorderDirectives, setSize]
  | cons s rest =>
    have h1 := selDirectives_length_le s
    have h2 := preorderDirectives_length_le rest
    simp only [preorderDirectives, setSize, List.length_append]
    omega
end

/-- Exhausting the pending directive cursor (Rust's
`self.directive_iter.take()`) behaves exactly like having none. -/
theorem SetDirectiveIter.nextFuel_take :
    ∀ (fuel : Nat) (stack : List (List Selection)),
      SetDirectiveIter.nextFuel fuel stack (some []) =
        SetDirectiveIter.nextFuel fuel stack none := by
  intro fuel stack
  match fuel, stack with
  | 0, [] => rfl
  | fuel + 1, [] => rfl
  | 0, _ :: _ => rfl
  | fuel + 1, frame :: lower =>
    cases frame with
    | nil => rfl
    | cons s rest => cases s <;> rfl

/-- One pass of the stack walk of `SetDirectiveIter::next`, starting with
no pending cursor, assuming the characterization already holds at the
smaller fuel. -/
theorem SetDirectiveIter.walkAux (fuel : Nat)
    (ih : ∀ (stack : List (List Selection)) (cur : Option (List Directive)),
      stackMeasure stack ≤ fuel →
      (SetDirectiveIter.nextFuel fuel stack cur = none ∧
        dirSem ⟨stack, cur⟩ = []) ∨
      ∃ d it', SetDirectiveIter.nextFuel fuel stack cur = some (d, it') ∧
        dirSem ⟨stack, cur⟩ = d :: dirSem it')
    (frame : List Selection) (lower : List (List Selection))
    (hle : stackMeasure (frame :: lower) ≤ fuel + 1) :
    (SetDirectiveIter.nextFuel (fuel + 1) (frame :: lower) none = none ∧
      dirSem ⟨frame :: lower, none⟩ = []) ∨
    ∃ d it',
      SetDirectiveIter.nextFuel (fuel + 1) (frame :: lower) none =
        some (d, it') ∧
      dirSem ⟨frame :: lower, none⟩ = d :: dirSem it' := by
  rw [stackMeasure_cons] at hle
  cases frame with
  | nil =>
    have hlow : stackMeasure lower ≤ fuel := by
      simp [setSize] at hle; omega
    have h := ih lower none hlow
    have hstep : SetDirectiveIter.nextFuel (fuel + 1) ([] :: lower) none =
        SetDirectiveIter.nextFuel fuel lower none := rfl
    have hsem : dirSem ⟨([] : List Selection) :: lower, none⟩ =
        dirSem ⟨lower, none⟩ := by
      simp [dirSem, stackDirectives, preorderDirectives]
    rw [hstep, hsem]
    exact h
  | cons s rest =>
    cases s with
    | field f =>
      cases f with
      | mk n ds ss =>
        have hm : stackMeasure (ss :: rest :: lower) ≤ fuel := by
          rw [stackMeasure_cons, stackMeasure_cons]
          simp only [setSize, selSize] at hle
          omega
        have h := ih (ss :: rest :: lower) (some ds) hm
        have hstep : SetDirectiveIter.nextFuel (fuel + 1)
            ((Selection.field (.mk n ds ss) :: rest) :: lower) none =
            SetDirectiveIter.nextFuel fuel (ss :: rest :: lower) (some ds) := rfl
        have hsem : dirSem ⟨(Selection.field (.mk n ds ss) :: rest) :: lower, none⟩ =
            dirSem ⟨ss :: rest :: lower, some ds⟩ := by
          simp [dirSem, stackDirectives, preorderDirectives, selDirectives]
        rw [hstep, hsem]
        exact h
    | inlineFragment i =>
      cases i with
      | mk ds ss =>
        have hm : stackMeasure (ss :: rest :: lower) ≤ fuel := by
          rw [stackMeasure_cons, stackMeasure_cons]
          simp only [setSize, selSize] at hle
          omega
        have h := ih (ss :: rest :: lower) (some ds) hm
        have hstep : SetDirectiveIter.nextFuel (fuel + 1)
            ((Selection.inlineFragment (.mk ds ss) :: rest) :: lower) none =
            SetDirectiveIter.nextFuel fuel (ss :: rest :: lower) (some ds) := rfl
        have hsem : dirSem ⟨(Selection.inlineFragment (.mk ds ss) :: rest) :: lower, none⟩ =
            dirSem ⟨ss :: rest :: lower, some ds⟩ := by
          simp [dirSem, stackDirectives, preorderDirectives, selDirectives]
        rw [hstep, hsem]
        exact h
    | fragmentSpread sp =>
      have hm : stackMeasure (rest :: lower) ≤ fuel := by
        rw [stackMeasure_cons]
        simp only [setSize, selSize] at hle
        omega
      have h := ih (rest :: lower) (some sp.directives) hm
      have hstep : SetDirectiveIter.nextFuel (fuel + 1)
          ((Selection.fragmentSpread sp :: rest) :: lower) none =
          SetDirectiveIter.nextFuel fuel (rest :: lower) (some sp.directives) := rfl
      have hsem : dirSem ⟨(Selection.fragmentSpread sp :: rest) :: lower, none⟩ =
          dirSem ⟨rest :: lower, some sp.directives⟩ := by
        simp [dirSem, stackDirectives, preorderDirectives, selDirectives]
      rw [hstep, hsem]
      exact h

/-- Characterization of the loop of `SetDirectiveIter::next`: with enough
fuel it reports exhaustion exactly when no directive remains, or yields
the first remaining directive with a successor state holding the rest. -/
theorem dirNextFuel_spec :
    ∀ (fuel : Nat) (stack : List (List Selection))
      (cur : Option (List Directive)), stackMeasure stack ≤ fuel →
      (SetDirectiveIter.nextFuel fuel stack cur = none ∧
        dirSem ⟨stack, cur⟩ = []) ∨
      ∃ d it', SetDirectiveIter.nextFuel fuel stack cur = some (d, it') ∧
        dirSem ⟨stack, cur⟩ = d :: dirSem it' := by
  intro fuel
  induction fuel with
  | zero =>
    intro stack cur hle
    match stack, cur with
    | [], some (d :: ds) =>
      exact Or.inr ⟨d, ⟨[], some ds⟩, rfl, by simp [dirSem]⟩
    | frame :: lower, some (d :: ds) =>
      exact Or.inr ⟨d, ⟨frame :: lower, some ds⟩, rfl, by simp [dirSem]⟩
    | [], none => exact Or.inl ⟨rfl, by simp [dirSem, stackDirectives]⟩
    | [], some [] => exact Or.inl ⟨rfl, by simp [dirSem, stackDirectives]⟩
    | frame :: lower, none => rw [stackMeasure_cons] at hle; omega
    | frame :: lower, some [] => rw [stackMeasure_cons] at hle; omega
  | succ fuel ih =>
    intro stack cur hle
    match stack, cur with
    | [], some (d :: ds) =>
      exact Or.inr ⟨d, ⟨[], some ds⟩, rfl, by simp [dirSem]⟩
    | frame :: lower, some (d :: ds) =>
      exact Or.inr ⟨d, ⟨frame :: lower, some ds⟩, rfl, by simp [dirSem]⟩
    | [], none => exact Or.inl ⟨rfl, by simp [dirSem, stackDirectives]⟩
    | [], some [] => exact Or.inl ⟨rfl, by simp [dirSem, stackDirectives]⟩
    | frame :: lower, none =>
      exact SetDirectiveIter.walkAux fuel ih frame lower hle
    | frame :: lower, some [] =>
      rw [SetDirectiveIter.nextFuel_take]
      exact SetDirectiveIter.walkAux fuel ih frame lower hle

/-- Characterization of one `SetDirectiveIter::next` call on the wrapped
state. -/
theorem dirNext_spec (it : SetDirectiveIter) :
    (it.next = (none, ⟨[], none⟩) ∧ dirSem it = []) ∨
    ∃ d it', it.next = (some d, it') ∧ dirSem it = d :: dirSem it' := by
  rcases dirNextFuel_spec (stackMeasure it.stack) it.stack
      it.directive_iter (Nat.le_refl _) with ⟨h1, h2⟩ | ⟨d, it', h1, h2⟩
  · exact Or.inl ⟨by simp [SetDirectiveIter.next, h1], h2⟩
  · exact Or.inr ⟨d, it', by simp [SetDirectiveIter.next, h1], h2⟩

/-- The directive engine over a SelectionSet produces exactly the
annotate-then-descend pre-order directive listing. -/
theorem dirIterSeq_eq (v : SelectionSet) :
    dirIterSeq v = preorderDirectives v := by
  have hspec : ∀ it : SetDirectiveIter,
      ((SetDirectiveIter.next it).1 = none ∧ dirSem it = []) ∨
      ∃ x, (SetDirectiveIter.next it).1 = some x ∧
        dirSem it = x :: dirSem (SetDirectiveIter.next it).2 := by
    intro it
    rcases dirNext_spec it with ⟨h1, h2⟩ | ⟨d, it', h1, h2⟩
    · exact Or.inl ⟨by simp [h1], h2⟩
    · exact Or.inr ⟨d, by simp [h1], by simp [h1]; exact h2⟩
  have hrun := runSteps_eq_of_spec SetDirectiveIter.next dirSem hspec
  have hsem : dirSem (SetDirectiveIter.new v) = preorderDirectives v := by
    simp [dirSem, SetDirectiveIter.new, stackDirectives]
  have hlen : (dirSem (SetDirectiveIter.new v)).length <
      ((SetDirectiveIter.new v).directive_iter.getD []).length +
        stackMeasure (SetDirectiveIter.new v).stack + 1 := by
    rw [hsem]
    have h1 := preorderDirectives_length_le v
    have h2 : stackMeasure [v] = 1 + setSize v := by
      rw [stackMeasure_cons, stackMeasure_nil]; omega
    simp only [SetDirectiveIter.new, Option.getD, List.length_nil]
    omega
  have := hrun (((SetDirectiveIter.new v).directive_iter.getD []).length +
      stackMeasure (SetDirectiveIter.new v).stack + 1) (SetDirectiveIter.new v) hlen
  calc dirIterSeq v = dirSem (SetDirectiveIter.new v) := this
    _ = preorderDirectives v := hsem

theorem defsFields_length_le (defs : List Definition) :
    (defsFields defs).length ≤ defsMeasure defs := by
  induction defs with
  | nil => simp [defsFields, defsMeasure]
  | cons d rest ih =>
    have h := preorderFields_length_le d.selection_set
    simp only [defsFields, defsMeasure, List.length_append]
    omega

/-- Characterization of the definition-advancing loop. -/
theorem DocumentFieldIter.advanceDef_spec (defs : List Definition) :
    (DocumentFieldIter.advanceDef defs = none ∧ defsFields defs = []) ∨
    ∃ f it', DocumentFieldIter.advanceDef defs = some (f, it') ∧
      defsFields defs = f :: docSem it' := by
  induction defs with
  | nil => exact Or.inl ⟨rfl, rfl⟩
  | cons d rest ih =>
    rcases fieldNext_spec (FieldIter.new d.selection_set) with
      ⟨h1, h2⟩ | ⟨f, fi', h1, h2⟩
    · have hempty : preorderFields d.selection_set = [] := by
        have : stackFields (FieldIter.new d.selection_set).stack
            = preorderFields d.selection_set ++ [] := rfl
        rw [this, List.append_nil] at h2
        exact h2
      have hstep : DocumentFieldIter.advanceDef (d :: rest) =
          DocumentFieldIter.advanceDef rest := by
        simp [DocumentFieldIter.advanceDef, h1]
      have hflat : defsFields (d :: rest) = defsFields rest := by
        simp [defsFields, hempty]
      rw [hstep, hflat]
      exact ih
    · have hnew : stackFields (FieldIter.new d.selection_set).stack
          = preorderFields d.selection_set ++ [] := rfl
      rw [hnew, List.append_nil] at h2
      refine Or.inr ⟨f, ⟨rest, some fi'⟩, ?_, ?_⟩
      · simp [DocumentFieldIter.advanceDef, h1]
      · simp only [defsFields, docSem, h2, List.cons_append]

/-- Characterization of one `DocumentFieldIter::next` call. -/
theorem docNext_spec (it : DocumentFieldIter) :
    (it.next = (none, ⟨[], none⟩) ∧ docSem it = []) ∨
    ∃ f it', it.next = (some f, it') ∧ docSem it = f :: docSem it' := by
  rcases it with ⟨defs, fi?⟩
  cases fi? with
  | none =>
    rcases DocumentFieldIter.advanceDef_spec defs with ⟨h1, h2⟩ | ⟨f, it', h1, h2⟩
    · exact Or.inl ⟨by simp [DocumentFieldIter.next, h1], by simp [docSem, h2]⟩
    · exact Or.inr ⟨f, it', by simp [DocumentFieldIter.next, h1],
        by simp [docSem]; exact h2⟩
  | some fi =>
    rcases fieldNext_spec fi with ⟨h1, h2⟩ | ⟨f, fi', h1, h2⟩
    · rcases DocumentFieldIter.advanceDef_spec defs with
        ⟨ha1, ha2⟩ | ⟨f, it', ha1, ha2⟩
      · refine Or.inl ⟨?_, ?_⟩
        · simp [DocumentFieldIter.next, h1, ha1]
        · simp [docSem, h2, ha2]
      · refine Or.inr ⟨f, it', ?_, ?_⟩
        · simp [DocumentFieldIter.next, h1, ha1]
        · simp [docSem, h2]; exact ha2
    · refine Or.inr ⟨f, ⟨defs, some fi'⟩, ?_, ?_⟩
      · simp [DocumentFieldIter.next, h1]
      · simp only [docSem, h2, List.cons_append]

/-- The document engine produces the concatenation, in definition order,
of the pre-order field listings of the definitions' bodies. -/
theorem docFieldIterSeq_eq (v : Document) :
    docFieldIterSeq v = defsFields v.definitions := by
  have hspec : ∀ it : DocumentFieldIter,
      ((DocumentFieldIter.next it).1 = none ∧ docSem it = []) ∨
      ∃ x, (DocumentFieldIter.next it).1 = some x ∧
        docSem it = x :: docSem (DocumentFieldIter.next it).2 := by
    intro it
    rcases docNext_spec it with ⟨h1, h2⟩ | ⟨f, it', h1, h2⟩
    · exact Or.inl ⟨by simp [h1], h2⟩
    · exact Or.inr ⟨f, by simp [h1], by simp [h1]; exact h2⟩
  have hrun := runSteps_eq_of_spec DocumentFieldIter.next docSem hspec
  have hsem : docSem (DocumentFieldIter.new v) = defsFields v.definitions := by
    simp [docSem, DocumentFieldIter.new]
  have hlen : (docSem (DocumentFieldIter.new v)).length <
      docMeasure (DocumentFieldIter.new v) + 1 := by
    rw [hsem]
    have h1 := defsFields_length_le v.definitions
    have h2 : docMeasure (DocumentFieldIter.new v) =
        defsMeasure v.definitions := by
      simp [docMeasure, DocumentFieldIter.new]
    omega
  have := hrun (docMeasure (DocumentFieldIter.new v) + 1)
      (DocumentFieldIter.new v) hlen
  calc docFieldIterSeq v = docSem (DocumentFieldIter.new v) := this
    _ = defsFields v.definitions := hsem

/-- The first engine's output under any schedule depends only on its own
start state and the number of its own ticks. -/
theorem outputsBoth_fst {σ ι : Type} (next : σ → Option ι × σ) :
    ∀ (sched : List Bool) (a b : σ),
      (outputsBoth next sched a b).1 = tickRun next (sched.count true) a := by
  intro sched
  induction sched with
  | nil => intro a b; simp [outputsBoth, tickRun]
  | cons side sched ih =>
    intro a b
    cases side with
    | true => simp [outputsBoth, List.count_cons, tickRun, ih]
    | false => simp [outputsBoth, List.count_cons, ih]

/-- The second engine's output under any schedule depends only on its own
start state and the number of its own ticks. -/
theorem outputsBoth_snd {σ ι : Type} (next : σ → Option ι × σ) :
    ∀ (sched : List Bool) (a b : σ),
      (outputsBoth next sched a b).2 = tickRun next (sched.count false) b := by
  intro sched
  induction sched with
  | nil => intro a b; simp [outputsBoth, tickRun]
  | cons side sched ih =>
    intro a b
    cases side with
    | true => simp [outputsBoth, List.count_cons, ih]
    | false => simp [outputsBoth, List.count_cons, tickRun, ih]

/-- An engine whose exhausted states are sinks yields nothing after
exhaustion. -/
theorem tickRun_terminal {σ ι : Type} (next : σ → Option ι × σ)
    (hsink : ∀ st, (next st).1 = none → next (next st).2 = (none, (next st).2)) :
    ∀ (n : Nat) (st : σ), (next st).1 = none → tickRun next n (next st).2 = [] := by
  intro n
  induction n with
  | zero => intro st _; rfl
  | succ n ih =>
    intro st h
    have hfix := hsink st h
    have h2 : (next (next st).2).1 = none := by rw [hfix]
    have h3 := ih (next st).2 h2
    rw [hfix] at h3
    simp [tickRun, hfix, h3]

/-- For an engine whose exhausted states are sinks, counting ticks past
exhaustion changes nothing: `tickRun` and the stop-at-`none` driver
`runSteps` agree. -/
theorem tickRun_eq_runSteps {σ ι : Type} (next : σ → Option ι × σ)
    (hsink : ∀ st, (next st).1 = none → next (next st).2 = (none, (next st).2)) :
    ∀ (n : Nat) (st : σ), tickRun next n st = runSteps next n st := by
  intro n
  induction n with
  | zero => intro st; rfl
  | succ n ih =>
    intro st
    rcases hnext : next st with ⟨o, st'⟩
    cases o with
    | none =>
      have h1 : (next st).1 = none := by rw [hnext]
      have h2 := tickRun_terminal next hsink n st h1
      rw [hnext] at h2
      simp [tickRun, runSteps, hnext, h2]
    | some x =>
      simp [tickRun, runSteps, hnext, ih]

/-- A `FieldIter` that reports exhaustion is left with an empty stack. -/
theorem fieldNext_none_state (it : FieldIter)
    (h : (it.next).1 = none) : (it.next).2 = ⟨[]⟩ := by
  rcases hf : FieldIter.nextFuel (stackMeasure it.stack) it.stack with _ | ⟨f, st⟩
  · simp [FieldIter.next, hf]
  · simp [FieldIter.next, hf] at h

/-- Exhausted `FieldIter` states are sinks. -/
theorem fieldSink (it : FieldIter) (h : (it.next).1 = none) :
    FieldIter.next (it.next).2 = (none, (it.next).2) := by
  rw [fieldNext_none_state it h]
  rfl

/-- A `SetDirectiveIter` that reports exhaustion is left with an empty
stack and no pending cursor. -/
theorem dirNext_none_state (it : SetDirectiveIter)
    (h : (it.next).1 = none) : (it.next).2 = ⟨[], none⟩ := by
  rcases hf : SetDirectiveIter.nextFuel (stackMeasure it.stack) it.stack
      it.directive_iter with _ | ⟨d, it'⟩
  · simp [SetDirectiveIter.next, hf]
  · simp [SetDirectiveIter.next, hf] at h

/-- Exhausted `SetDirectiveIter` states are sinks. -/
theorem dirSink (it : SetDirectiveIter)
    (h : (it.next).1 = none) :
    SetDirectiveIter.next (it.next).2 = (none, (it.next).2) := by
  rw [dirNext_none_state it h]
  rfl

/-- A `DocumentFieldIter` that reports exhaustion is left with no
definitions and no current field iterator. -/
theorem docNext_none_state (it : DocumentFieldIter)
    (h : (it.next).1 = none) : (it.next).2 = ⟨[], none⟩ := by
  rcases it with ⟨defs, fi?⟩
  cases fi? with
  | none =>
    rcases ha : DocumentFieldIter.advanceDef defs with _ | ⟨f, it'⟩
    · simp [DocumentFieldIter.next, ha]
    · simp [DocumentFieldIter.next, ha] at h
  | some fi =>
    rcases hn : fi.next with ⟨o, fi'⟩
    cases o with
    | some f => simp [DocumentFieldIter.next, hn] at h
    | none =>
      rcases ha : DocumentFieldIter.advanceDef defs with _ | ⟨f, it'⟩
      · simp [DocumentFieldIter.next, hn, ha]
      · simp [DocumentFieldIter.next, hn, ha] at h

/-- Exhausted `DocumentFieldIter` states are sinks. -/
theorem docSink (it : DocumentFieldIter)
    (h : (it.next).1 = none) :
    DocumentFieldIter.next (it.next).2 = (none, (it.next).2) := by
  rw [docNext_none_state it h]
  rfl

/-- Any engine satisfying the head-peeling characterization reaches the
exhausted answer after finitely many `next` calls. -/
theorem exhausts_of_spec {σ ι : Type} (next : σ → Option ι × σ)
    (sem : σ → List ι)
    (hspec : ∀ st, ((next st).1 = none ∧ sem st = []) ∨
      ∃ x, (next st).1 = some x ∧ sem st = x :: sem (next st).2) :
    ∀ (k : Nat) (st : σ), (sem st).length ≤ k →
      ∃ n, (next ((stepState next)^[n] st)).1 = none := by
  intro k
  induction k with
  | zero =>
    intro st hle
    rcases hspec st with ⟨h1, _⟩ | ⟨x, _, h2⟩
    · exact ⟨0, by simpa using h1⟩
    · rw [h2] at hle; simp at hle
  | succ k ih =>
    intro st hle
    rcases hspec st with ⟨h1, _⟩ | ⟨x, _, h2⟩
    · exact ⟨0, by simpa using h1⟩
    · have hlt : (sem (next st).2).length ≤ k := by
        rw [h2] at hle
        simp only [List.length_cons] at hle
        omega
      rcases ih (next st).2 hlt with ⟨n, hn⟩
      refine ⟨n + 1, ?_⟩
      rw [Function.iterate_succ_apply]
      exact hn

mutual
theorem selFields_occs (s : Selection) :
    (selFields s : Multiset Field) = selFieldOccs s := by
  cases s with
  | field f =>
    cases f with
    | mk n ds ss =>
      have h := preorderFields_occs ss
      simp only [selFields, selFieldOccs]
      rw [← Multiset.cons_coe, h]
  | inlineFragment i =>
    cases i with
    | mk ds ss =>
      have h := preorderFields_occs ss
      simp only [selFields, selFieldOccs]
      exact h
  | fragmentSpread s =>
    rfl

theorem preorderFields_occs (l : List Selection) :
    (preorderFields l : Multiset Field) = reachableFieldOccs l := by
  cases l with
  | nil => rfl
  | cons s rest =>
    have h1 := selFields_occs s
    have h2 := preorderFields_occs rest
    simp only [preorderFields, reachableFieldOccs]
    rw [← Multiset.coe_add, h1, h2]
end

theorem stackMeasure_single (v : List Selection) :
    stackMeasure [v] = 1 + setSize v := by
  rw [stackMeasure_cons, stackMeasure_nil]; omega

theorem stackFields_new (v : SelectionSet) :
    stackFields (FieldIter.new v).stack = preorderFields v := by
  rw [show stackFields (FieldIter.new v).stack = preorderFields v ++ [] from rfl,
    List.append_nil]

/-- Head-peeling characterization of `FieldIter::next` in the shape the
generic drivers expect. -/
theorem fieldSemSpec (it : FieldIter) :
    ((FieldIter.next it).1 = none ∧ stackFields it.stack = []) ∨
    ∃ x, (FieldIter.next it).1 = some x ∧
      stackFields it.stack = x :: stackFields (FieldIter.next it).2.stack := by
  rcases fieldNext_spec it with ⟨h1, h2⟩ | ⟨f, it', h1, h2⟩
  · exact Or.inl ⟨by simp [h1], h2⟩
  · exact Or.inr ⟨f, by simp [h1], by simp [h1]; exact h2⟩

/-- Head-peeling characterization of `SetDirectiveIter::next` in the
shape the generic drivers expect. -/
theorem dirSemSpec (it : SetDirectiveIter) :
    ((SetDirectiveIter.next it).1 = none ∧ dirSem it = []) ∨
    ∃ x, (SetDirectiveIter.next it).1 = some x ∧
      dirSem it = x :: dirSem (SetDirectiveIter.next it).2 := by
  rcases dirNext_spec it with ⟨h1, h2⟩ | ⟨d, it', h1, h2⟩
  · exact Or.inl ⟨by simp [h1], h2⟩
  · exact Or.inr ⟨d, by simp [h1], by simp [h1]; exact h2⟩

/-- Head-peeling characterization of `DocumentFieldIter::next` in the
shape the generic drivers expect. -/
theorem docSemSpec (it : DocumentFieldIter) :
    ((DocumentFieldIter.next it).1 = none ∧ docSem it = []) ∨
    ∃ x, (DocumentFieldIter.next it).1 = some x ∧
      docSem it = x :: docSem (DocumentFieldIter.next it).2 := by
  rcases docNext_spec it with ⟨h1, h2⟩ | ⟨f, it', h1, h2⟩
  · exact Or.inl ⟨by simp [h1], h2⟩
  · exact Or.inr ⟨f, by simp [h1], by simp [h1]; exact h2⟩

theorem fieldIter_new_len (v : SelectionSet) :
    (stackFields (FieldIter.new v).stack).length <
      stackMeasure (FieldIter.new v).stack + 1 := by
  rw [stackFields_new]
  have h1 := preorderFields_length_le v
  have h2 : (FieldIter.new v).stack = [v] := rfl
  rw [h2, stackMeasure_single]
  omega

/-- Running a fresh `FieldIter` for its fuel bound plus any surplus of
ticks produces the canonical sequence. -/
theorem fieldIter_tickRun (v : SelectionSet) (k : Nat) :
    tickRun FieldIter.next (stackMeasure (FieldIter.new v).stack + 1 + k)
      (FieldIter.new v) = fieldIterSeq v := by
  have hrun := runSteps_eq_of_spec FieldIter.next
    (fun it => stackFields it.stack) fieldSemSpec
  have hlen := fieldIter_new_len v
  calc tickRun FieldIter.next (stackMeasure (FieldIter.new v).stack + 1 + k)
        (FieldIter.new v)
      = runSteps FieldIter.next (stackMeasure (FieldIter.new v).stack + 1 + k)
        (FieldIter.new v) :=
        tickRun_eq_runSteps FieldIter.next fieldSink _ _
    _ = stackFields (FieldIter.new v).stack := hrun _ _ (by
        show (stackFields (FieldIter.new v).stack).length <
          stackMeasure (FieldIter.new v).stack + 1 + k
        omega)
    _ = runSteps FieldIter.next (stackMeasure (FieldIter.new v).stack + 1)
        (FieldIter.new v) := (hrun _ _ hlen).symm
    _ = fieldIterSeq v := rfl

theorem dirIter_new_len (v : SelectionSet) :
    (dirSem (SetDirectiveIter.new v)).length <
      ((SetDirectiveIter.new v).directive_iter.getD []).length +
        stackMeasure (SetDirectiveIter.new v).stack + 1 := by
  have h0 : dirSem (SetDirectiveIter.new v) = preorderDirectives v := by
    simp [dirSem, SetDirectiveIter.new, stackDirectives]
  rw [h0]
  have h1 := preorderDirectives_length_le v
  have h2 : (SetDirectiveIter.new v).stack = [v] := rfl
  rw [h2, stackMeasure_single]
  simp only [SetDirectiveIter.new, Option.getD, List.length_nil]
  omega

/-- Running a fresh `SetDirectiveIter` for its fuel bound plus any
surplus of ticks produces the canonical sequence. -/
theorem dirIter_tickRun (v : SelectionSet) (k : Nat) :
    tickRun SetDirectiveIter.next
      (((SetDirectiveIter.new v).directive_iter.getD []).length +
        stackMeasure (SetDirectiveIter.new v).stack + 1 + k)
      (SetDirectiveIter.new v) = dirIterSeq v := by
  have hrun := runSteps_eq_of_spec SetDirectiveIter.next dirSem
    dirSemSpec
  have hlen := dirIter_new_len v
  calc tickRun SetDirectiveIter.next
        (((SetDirectiveIter.new v).directive_iter.getD []).length +
          stackMeasure (SetDirectiveIter.new v).stack + 1 + k)
        (SetDirectiveIter.new v)
      = runSteps SetDirectiveIter.next
        (((SetDirectiveIter.new v).directive_iter.getD []).length +
          stackMeasure (SetDirectiveIter.new v).stack + 1 + k)
        (SetDirectiveIter.new v) :=
        tickRun_eq_runSteps SetDirectiveIter.next dirSink _ _
    _ = dirSem (SetDirectiveIter.new v) := hrun _ _ (by omega)
    _ = runSteps SetDirectiveIter.next
        (((SetDirectiveIter.new v).directive_iter.getD []).length +
          stackMeasure (SetDirectiveIter.new v).stack + 1)
        (SetDirectiveIter.new v) := (hrun _ _ hlen).symm
    _ = dirIterSeq v := rfl

theorem docIter_new_len (v : Document) :
    (docSem (DocumentFieldIter.new v)).length <
      docMeasure (DocumentFieldIter.new v) + 1 := by
  have h0 : docSem (DocumentFieldIter.new v) = defsFields v.definitions := by
    simp [docSem, DocumentFieldIter.new]
  have h1 := defsFields_length_le v.definitions
  have h2 : docMeasure (DocumentFieldIter.new v) = defsMeasure v.definitions := by
    simp [docMeasure, DocumentFieldIter.new]
  rw [h0, h2]
  omega

/-- Running a fresh `DocumentFieldIter` for its fuel bound plus any
surplus of ticks produces the canonical sequence. -/
theorem docIter_tickRun (v : Document) (k : Nat) :
    tickRun DocumentFieldIter.next (docMeasure (DocumentFieldIter.new v) + 1 + k)
      (DocumentFieldIter.new v) = docFieldIterSeq v := by
  have hrun := runSteps_eq_of_spec DocumentFieldIter.next docSem
    docSemSpec
  have hlen := docIter_new_len v
  calc tickRun DocumentFieldIter.next
        (docMeasure (DocumentFieldIter.new v) + 1 + k) (DocumentFieldIter.new v)
      = runSteps DocumentFieldIter.next
        (docMeasure (DocumentFieldIter.new v) + 1 + k)
        (DocumentFieldIter.new v) :=
        tickRun_eq_runSteps DocumentFieldIter.next docSink _ _
    _ = docSem (DocumentFieldIter.new v) := hrun _ _ (by omega)
    _ = runSteps DocumentFieldIter.next
        (docMeasure (DocumentFieldIter.new v) + 1)
        (DocumentFieldIter.new v) := (hrun _ _ hlen).symm
    _ = docFieldIterSeq v := rfl

/-- C1: for every SelectionSet, the field engine yields every Field
transitively reachable through Field/InlineFragment nesting exactly once
(as a multiset, each reachable occurrence appears with multiplicity one),
and yields no Field reachable only through a FragmentSpread, since
`reachableFieldOccs` assigns spreads no contribution. -/
theorem fieldIter_visits_reachable_exactly_once (v : SelectionSet) :
    (fieldIterSeq v : Multiset Field) = reachableFieldOccs v := by
  rw [fieldIterSeq_eq]
  exact preorderFields_occs v

/-- C2: for every SelectionSet, the field engine's output is exactly the
pre-order depth-first listing in document order: each Field appears
before the fields of its nested set, which appear before its later
siblings, and sibling order is preserved. -/
theorem fieldIter_preorder_document_order (v : SelectionSet) :
    fieldIterSeq v = preorderFields v :=
  fieldIterSeq_eq v

/-- C3: for every SelectionSet, the directive engine yields, for each
Selection node in pre-order depth-first order, all of that node's own
directives contiguously in declared order, completed before any directive
of the node's children or later siblings. -/
theorem dirIter_contiguous_preorder (v : SelectionSet) :
    dirIterSeq v = preorderDirectives v :=
  dirIterSeq_eq v

/-- C4: for every Document, the document field engine's output equals the
concatenation, in definition order, of the field engine's output over
each Definition's SelectionSet (Operation and Fragment bodies alike). -/
theorem docFieldIter_concat_of_definitions (D : Document) :
    docFieldIterSeq D =
      (D.definitions.map (fun d => fieldIterSeq d.selection_set)).flatten := by
  rw [docFieldIterSeq_eq]
  induction D.definitions with
  | nil => rfl
  | cons d rest ih =>
    simp only [defsFields, List.map_cons, List.flatten_cons, ih, fieldIterSeq_eq]

/-- C5: a SelectionSet whose only Selection is a FragmentSpread yields no
fields, while the directive engine yields exactly the spread's own
directives in declared order, hence nothing when the spread carries no
directives; the referenced fragment body contributes nothing. -/
theorem spread_only_set (s : FragmentSpread) :
    fieldIterSeq [Selection.fragmentSpread s] = [] ∧
    dirIterSeq [Selection.fragmentSpread s] = s.directives ∧
    (s.directives = [] → dirIterSeq [Selection.fragmentSpread s] = []) := by
  refine ⟨?_, ?_, ?_⟩
  · rw [fieldIterSeq_eq]
    rfl
  · rw [dirIterSeq_eq]
    simp [preorderDirectives, selDirectives]
  · intro h
    rw [dirIterSeq_eq]
    simp [preorderDirectives, selDirectives, h]

theorem spread_only_set_witness :
    dirIterSeq [Selection.fragmentSpread ⟨"f", []⟩] = [] :=
  (spread_only_set ⟨"f", []⟩).2.2 rfl

/-- C6: each of the three engines terminates: from any fresh engine,
after finitely many next-item steps the engine answers with no next item
(and the produced sequence, being a Lean list, is finite). -/
theorem engines_terminate (S : SelectionSet) (D : Document) :
    (∃ n, (FieldIter.next
      ((stepState FieldIter.next)^[n] (FieldIter.new S))).1 = none) ∧
    (∃ n, (DocumentFieldIter.next
      ((stepState DocumentFieldIter.next)^[n] (DocumentFieldIter.new D))).1 = none) ∧
    (∃ n, (SetDirectiveIter.next
      ((stepState SetDirectiveIter.next)^[n] (SetDirectiveIter.new S))).1 = none) := by
  refine ⟨?_, ?_, ?_⟩
  · exact exhausts_of_spec FieldIter.next (fun it => stackFields it.stack)
      fieldSemSpec _ (FieldIter.new S) (Nat.le_refl _)
  · exact exhausts_of_spec DocumentFieldIter.next docSem
      docSemSpec _ (DocumentFieldIter.new D) (Nat.le_refl _)
  · exact exhausts_of_spec SetDirectiveIter.next dirSem
      dirSemSpec _ (SetDirectiveIter.new S) (Nat.le_refl _)

/-- C7: for each engine, two fresh engines constructed from the same root
and advanced under an arbitrary interleaving are independent — each one's
output depends only on its own number of ticks — and with enough ticks
each produces the same canonical sequence; in particular equal tick
counts give two identical sequences. -/
theorem engines_independent_restartable (S : SelectionSet) (D : Document)
    (sched : List Bool) (k : Nat) :
    ((outputsBoth FieldIter.next sched (FieldIter.new S) (FieldIter.new S)).1 =
        tickRun FieldIter.next (sched.count true) (FieldIter.new S) ∧
      (outputsBoth FieldIter.next sched (FieldIter.new S) (FieldIter.new S)).2 =
        tickRun FieldIter.next (sched.count false) (FieldIter.new S) ∧
      tickRun FieldIter.next (stackMeasure (FieldIter.new S).stack + 1 + k)
        (FieldIter.new S) = fieldIterSeq S) ∧
    ((outputsBoth SetDirectiveIter.next sched (SetDirectiveIter.new S)
        (SetDirectiveIter.new S)).1 =
        tickRun SetDirectiveIter.next (sched.count true) (SetDirectiveIter.new S) ∧
      (outputsBoth SetDirectiveIter.next sched (SetDirectiveIter.new S)
        (SetDirectiveIter.new S)).2 =
        tickRun SetDirectiveIter.next (sched.count false) (SetDirectiveIter.new S) ∧
      tickRun SetDirectiveIter.next
        (((SetDirectiveIter.new S).directive_iter.getD []).length +
          stackMeasure (SetDirectiveIter.new S).stack + 1 + k)
        (SetDirectiveIter.new S) = dirIterSeq S) ∧
    ((outputsBoth DocumentFieldIter.next sched (DocumentFieldIter.new D)
        (DocumentFieldIter.new D)).1 =
        tickRun DocumentFieldIter.next (sched.count true) (DocumentFieldIter.new D) ∧
      (outputsBoth DocumentFieldIter.next sched (DocumentFieldIter.new D)
        (DocumentFieldIter.new D)).2 =
        tickRun DocumentFieldIter.next (sched.count false) (DocumentFieldIter.new D) ∧
      tickRun DocumentFieldIter.next (docMeasure (DocumentFieldIter.new D) + 1 + k)
        (DocumentFieldIter.new D) = docFieldIterSeq D) :=
  ⟨⟨outputsBoth_fst FieldIter.next sched _ _,
      outputsBoth_snd FieldIter.next sched _ _,
      fieldIter_tickRun S k⟩,
    ⟨outputsBoth_fst SetDirectiveIter.next sched _ _,
      outputsBoth_snd SetDirectiveIter.next sched _ _,
      dirIter_tickRun S k⟩,
    ⟨outputsBoth_fst DocumentFieldIter.next sched _ _,
      outputsBoth_snd DocumentFieldIter.next sched _ _,
      docIter_tickRun D k⟩⟩

/-- C8: the empty SelectionSet yields zero items from both the field and
the directive engine, and the Document with zero Definitions yields zero
fields. -/
theorem empty_roots_yield_nothing :
    fieldIterSeq [] = [] ∧ dirIterSeq [] = [] ∧ docFieldIterSeq ⟨[]⟩ = [] :=
  ⟨rfl, rfl, rfl⟩

/-- C9: on the concrete users/id/country/id document, the document field
engine yields exactly the four field names users, id, country, id in that
order. -/
theorem users_query_field_sequence :
    (docFieldIterSeq usersQueryDoc).map Field.name =
      ["users", "id", "country", "id"] ∧
    (docFieldIterSeq usersQueryDoc).length = 4 :=
  ⟨rfl, rfl⟩

/-- C10: every engine is fused: once a `next` call has answered with no
item, every subsequent `next` call on the resulting state (after any
number of further steps) also answers with no item. -/
theorem engines_fused (a : FieldIter) (b : DocumentFieldIter)
    (c : SetDirectiveIter) (n : Nat) :
    ((FieldIter.next a).1 = none →
      (FieldIter.next
        ((stepState FieldIter.next)^[n] (FieldIter.next a).2)).1 = none) ∧
    ((DocumentFieldIter.next b).1 = none →
      (DocumentFieldIter.next
        ((stepState DocumentFieldIter.next)^[n]
          (DocumentFieldIter.next b).2)).1 = none) ∧
    ((SetDirectiveIter.next c).1 = none →
      (SetDirectiveIter.next
        ((stepState SetDirectiveIter.next)^[n]
          (SetDirectiveIter.next c).2)).1 = none) := by
  refine ⟨?_, ?_, ?_⟩
  · intro h
    have hfix : stepState FieldIter.next ⟨[]⟩ = (⟨[]⟩ : FieldIter) := rfl
    rw [fieldNext_none_state a h, Function.iterate_fixed hfix n]
    rfl
  · intro h
    have hfix : stepState DocumentFieldIter.next ⟨[], none⟩ =
        (⟨[], none⟩ : DocumentFieldIter) := rfl
    rw [docNext_none_state b h, Function.iterate_fixed hfix n]
    rfl
  · intro h
    have hfix : stepState SetDirectiveIter.next ⟨[], none⟩ =
        (⟨[], none⟩ : SetDirectiveIter) := rfl
    rw [dirNext_none_state c h, Function.iterate_fixed hfix n]
    rfl

theorem engines_fused_witness :
    (FieldIter.next
      ((stepState FieldIter.next)^[0] (FieldIter.next ⟨[]⟩).2)).1 = none ∧
    (DocumentFieldIter.next
      ((stepState DocumentFieldIter.next)^[0]
        (DocumentFieldIter.next ⟨[], none⟩).2)).1 = none ∧
    (SetDirectiveIter.next
      ((stepState SetDirectiveIter.next)^[0]
        (SetDirectiveIter.next ⟨[], none⟩).2)).1 = none :=
  ⟨(engines_fused ⟨[]⟩ ⟨[], none⟩ ⟨[], none⟩ 0).1 rfl,
    (engines_fused ⟨[]⟩ ⟨[], none⟩ ⟨[], none⟩ 0).2.1 rfl,
    (engines_fused ⟨[]⟩ ⟨[], none⟩ ⟨[], none⟩ 0).2.2 rfl⟩

end GraphqlVisitor
